import Mathlib

/-!
Shallow embedding of the navigation/addressing core of foliate-js
(`src/pdf.js`: the PDF adapter plus the view module), together with
theorems checking the specification's claims about it.
-/

namespace Foliate

/-! ## Outline model and `flatten` (pdf adapter, src/pdf.js lines 7-11)

JS:
```
const flatten = (items, level = 0) => items
    .map(item => item.subitems?.length
        ? [{ ...item, level }, flatten(item.subitems, level + 1)].flat()
        : { ...item, level })
    .flat()
```
An outline node (as produced by `makeTOCItem`) carries a `label`, an
`href` (the JSON-serialized destination) and a possibly-empty list of
`subitems` (`null` in JS is modelled as the empty list; both are falsy
under `subitems?.length`). -/

inductive OutlineNode : Type where
  | node (label : String) (href : String) (subitems : List OutlineNode)

/-- The label of an outline node. -/
def OutlineNode.label : OutlineNode → String
  | .node l _ _ => l

/-- The href of an outline node. -/
def OutlineNode.href : OutlineNode → String
  | .node _ h _ => h

/-- The subitems of an outline node. -/
def OutlineNode.subitems : OutlineNode → List OutlineNode
  | .node _ _ s => s

/-- One flattened outline entry: `{ ...item, level }` — the node's own
fields spread together with the assigned `level`. -/
structure FlatEntry : Type where
  label : String
  href : String
  subitems : List OutlineNode
  level : Nat

/-- `flatten(items, level)` of the pdf adapter: pre-order traversal that
tags each node with its nesting level.  A node whose `subitems` list is
empty (or `null`) is emitted alone; otherwise the node is emitted followed
by the flattening of its subitems at `level + 1`. -/
def flattenMany : List OutlineNode → Nat → List FlatEntry
  | [], _ => []
  | .node l h subs :: rest, lv =>
    (if subs.isEmpty then [⟨l, h, subs, lv⟩]
     else ⟨l, h, subs, lv⟩ :: flattenMany subs (lv + 1)) ++ flattenMany rest lv

/-- Total number of nodes in an outline forest. -/
def countMany : List OutlineNode → Nat
  | [] => 0
  | .node _ _ subs :: rest => 1 + countMany subs + countMany rest

/-- Pre-order traversal of an outline forest (the nodes themselves,
root before children, children before later siblings). -/
def preorderMany : List OutlineNode → List OutlineNode
  | [] => []
  | .node l h subs :: rest =>
    .node l h subs :: (preorderMany subs ++ preorderMany rest)

/-- The depth of every node of the forest, in pre-order, starting from
depth `d` for the roots and incrementing per nesting. -/
def depthsMany : List OutlineNode → Nat → List Nat
  | [], _ => []
  | .node _ _ subs :: rest, d =>
    d :: (depthsMany subs (d + 1) ++ depthsMany rest d)

/-- Recover the outline node underlying a flattened entry
(`{...item, level}` keeps all of the node's own fields). -/
def FlatEntry.toNode (e : FlatEntry) : OutlineNode :=
  .node e.label e.href e.subitems

unseal flattenMany

/-! ## Chapter index construction (`getIndexList`, src/pdf.js lines 248-258)

JS:
```
const getIndexList = async () => {
    const tocs = flatten(book.toc).filter(item =>
        item.level === 2 || (item.level === 1 && !item.subitems?.length))
    const indexList = await Promise.all(tocs.map(async item => ({
        ...item,
        index: await book.getHrefIndex(item.href),
        url: JSON.parse(item.href)
    })))
    return indexList
}
```
`book.toc` is `outline?.map(makeTOCItem)`: `undefined` when the document
has no outline, modelled as `none`.  `flatten(undefined)` calls `.map` on
`undefined` and throws a `TypeError`, so the `none` case yields no index
list.  `book.getHrefIndex` is asynchronous and may reject; a rejection
makes `Promise.all` reject, so the whole build fails (`Option.none`).
`JSON.parse(item.href)` re-parses the destination the href was serialized
from; the parsed value is opaque to the index logic and is modelled by the
href string itself. -/

/-- The filter applied to flattened outline entries by `getIndexList`:
`item.level === 2 || (item.level === 1 && !item.subitems?.length)`. -/
def indexFilter (it : FlatEntry) : Bool :=
  it.level == 2 || (it.level == 1 && it.subitems.isEmpty)

/-- The flattened outline entries `getIndexList` keeps. -/
def keptEntries (toc : List OutlineNode) : List FlatEntry :=
  (flattenMany toc 0).filter indexFilter

/-- One entry of the chapter index list: a kept flattened entry spread
together with its resolved section `index` and parsed destination `url`. -/
structure IndexEntry : Type where
  label : String
  href : String
  subitems : List OutlineNode
  level : Nat
  index : Int
  url : String

/-- `getIndexList`: fails when the outline is absent (`flatten` of
`undefined` throws), otherwise resolves every kept entry's href to a
section index (any failed resolution rejects the whole build). -/
def getIndexList (toc : Option (List OutlineNode))
    (getHrefIndex : String → Option Int) : Option (List IndexEntry) :=
  match toc with
  | none => none
  | some t =>
    (keptEntries t).mapM fun it =>
      (getHrefIndex it.href).map fun i =>
        ⟨it.label, it.href, it.subitems, it.level, i, it.href⟩

/-! ## Range lookup (`book.getTocIndex`, src/pdf.js lines 271-287)

JS:
```
book.getTocIndex = async index => {
    return book.getIndexList.then(indexList => {
        for (let i = 0; i < indexList.length; i++) {
            const start = indexList[i]?.index ?? 0
            const end = indexList[i + 1]?.index ?? 0
            if (index >= start && index < end) {
                const path = `page:${start}-${end}`
                return { ...indexList[i], path, start, end }
            }
        }
    })
}
```
For the last list entry `indexList[i + 1]` is `undefined`, so `end` is
`0`; falling off the loop returns `undefined` (`none`). -/

/-- The range record `getTocIndex` returns: the matched index entry spread
together with `path`, `start` and `end`. -/
structure TocRange : Type where
  entry : IndexEntry
  path : String
  start : Int
  stop : Int

/-- `getTocIndex` as run on a successfully built index list: scan
consecutive entries; `start` is the current entry's index, `end` the next
entry's index (`indexList[i + 1]?.index ?? 0`, so `0` for the last entry);
return the first window containing `index`, else `undefined`.  The JS loop
body is unrolled into the two list shapes it distinguishes: a last entry
(no successor, `end = 0`) and an entry with a successor. -/
def getTocIndex : List IndexEntry → Int → Option TocRange
  | [], _ => none
  | [e], idx =>
    if e.index ≤ idx ∧ idx < 0 then
      some ⟨e, s!"page:{e.index}-{(0 : Int)}", e.index, 0⟩
    else none
  | e :: e2 :: rest, idx =>
    if e.index ≤ idx ∧ idx < e2.index then
      some ⟨e, s!"page:{e.index}-{e2.index}", e.index, e2.index⟩
    else getTocIndex (e2 :: rest) idx

/-! ## Claim C1 -/

/-- If every entry of the prefix `l1` has its boundary at or below `idx`
(as sortedness guarantees when `idx` lies in the window of `a` and `b`),
the scan reaches the window `[a.index, b.index)` and returns it. -/
lemma getTocIndex_window (idx : Int) :
    ∀ (l1 : List IndexEntry) (a b : IndexEntry) (l2 : List IndexEntry),
      (∀ e ∈ l1, e.index ≤ idx) → a.index ≤ idx → idx < b.index →
      getTocIndex (l1 ++ a :: b :: l2) idx =
        some ⟨a, s!"page:{a.index}-{b.index}", a.index, b.index⟩ := by
  intro l1
  induction l1 with
  | nil =>
    intro a b l2 _ h1 h2
    rw [List.nil_append, getTocIndex, if_pos ⟨h1, h2⟩]
  | cons c l1' ih =>
    intro a b l2 hle h1 h2
    have hc : c.index ≤ idx := hle c (by simp)
    have ih' := ih a b l2 (fun e he => hle e (by simp [he])) h1 h2
    cases l1' with
    | nil =>
      simp only [List.nil_append] at ih' ⊢
      rw [List.cons_append, List.nil_append, getTocIndex, if_neg (by omega)]
      exact ih'
    | cons d l1'' =>
      have hd : d.index ≤ idx := hle d (by simp)
      rw [List.cons_append, List.cons_append, getTocIndex, if_neg (by omega),
        ← List.cons_append]
      exact ih'

/-- An index strictly below every boundary finds no range. -/
lemma getTocIndex_below (idx : Int) :
    ∀ (l : List IndexEntry), (∀ e ∈ l, idx < e.index) → getTocIndex l idx = none := by
  intro l
  induction l with
  | nil => intro _; rfl
  | cons e rest ih =>
    intro hall
    have he : idx < e.index := hall e (by simp)
    cases rest with
    | nil => rw [getTocIndex, if_neg (by omega)]
    | cons f rest' =>
      rw [getTocIndex, if_neg (by omega)]
      exact ih (fun x hx => hall x (List.mem_cons_of_mem _ hx))

/-- A non-negative index at or above every boundary finds no range: the
last entry's `end` is `0`, never the section count. -/
lemma getTocIndex_above (idx : Int) (h0 : 0 ≤ idx) :
    ∀ (l : List IndexEntry), (∀ e ∈ l, e.index ≤ idx) → getTocIndex l idx = none := by
  intro l
  induction l with
  | nil => intro _; rfl
  | cons e rest ih =>
    intro hall
    cases rest with
    | nil => rw [getTocIndex, if_neg (by omega)]
    | cons f rest' =>
      have hf : f.index ≤ idx := hall f (by simp)
      rw [getTocIndex, if_neg (by omega)]
      exact ih (fun x hx => hall x (List.mem_cons_of_mem _ hx))

/-- Index-list entry with boundary 3. -/
def entry3 : IndexEntry := ⟨"A", "a", [], 1, 3, "a"⟩

/-- Index-list entry with boundary 7. -/
def entry7 : IndexEntry := ⟨"B", "b", [], 1, 7, "b"⟩

/-- C1 counterexample: over the index list with boundaries 3 and 7 (say
N = 10 sections), section 0 — before the first boundary — resolves to no
range at all (no synthetic `[0, firstStart)` range), and section 8 —
inside the claimed final range `[7, N)` — also resolves to no range (the
last entry's `end` is `0`, not unbounded), so the ranges do not partition
`[0, N)`. -/
theorem toc_range_lookup_counterexample :
    getTocIndex [entry3, entry7] 0 = none ∧
    getTocIndex [entry3, entry7] 8 = none := ⟨rfl, rfl⟩

/-- C1 (amended): for an index list with ascending boundaries, an index
`idx` lying in the window of two consecutive entries is resolved to that
entry with `[start, end)` the two boundaries and `path` formatted
`page:start-end`; but an index below the first boundary yields no range
(there is no synthetic initial range), and a non-negative index at or
above the last boundary yields no range (the final entry's `end` is `0`,
not the section count). -/
theorem toc_range_lookup_amended (l : List IndexEntry) (idx : Int) :
    (∀ l1 a b l2, l = l1 ++ a :: b :: l2 → (∀ e ∈ l1, e.index ≤ idx) →
      a.index ≤ idx → idx < b.index →
      getTocIndex l idx = some ⟨a, s!"page:{a.index}-{b.index}", a.index, b.index⟩) ∧
    ((∀ e ∈ l, idx < e.index) → getTocIndex l idx = none) ∧
    (0 ≤ idx → (∀ e ∈ l, e.index ≤ idx) → getTocIndex l idx = none) := by
  refine ⟨?_, fun h => getTocIndex_below idx l h, fun h0 h => getTocIndex_above idx h0 l h⟩
  rintro l1 a b l2 rfl hle h1 h2
  exact getTocIndex_window idx l1 a b l2 hle h1 h2

/-- Witness for C1: index 5 inside the window `[3, 7)` resolves to that
window with path `page:3-7`. -/
theorem toc_range_lookup_witness :
    getTocIndex [entry3, entry7] 5 = some ⟨entry3, "page:3-7", 3, 7⟩ := by
  have h := (toc_range_lookup_amended [entry3, entry7] 5).1 [] entry3 entry7 []
    rfl (by simp) (by decide) (by decide)
  exact h

/-! ## Claim C2 -/

/-- C2 (code bug): when the document has no outline at all (`book.toc` is
`undefined`), `getIndexList` does not synthesize a uniform boundary list:
`flatten(book.toc)` calls `.map` on `undefined` and throws a `TypeError`,
so building the chapter index fails instead of succeeding with
`ceil(N/10)` boundaries. -/
theorem getIndexList_no_outline_fails :
    getIndexList none (fun _ => some 0) = none := rfl

/-! ## Claim C6 -/

/-- C6: for every nested outline tree, `flatten` produces a sequence whose
length equals the total number of nodes, whose order is the pre-order
traversal, and in which every node's assigned level equals its depth from
the root (level `lv` at the roots of the forest — `0` at the top-level
call — incremented per nesting). -/
theorem flatten_preorder_spec (items : List OutlineNode) (lv : Nat) :
    (flattenMany items lv).length = countMany items ∧
    (flattenMany items lv).map FlatEntry.toNode = preorderMany items ∧
    (flattenMany items lv).map FlatEntry.level = depthsMany items lv := by
  induction items, lv using flattenMany.induct with
  | case1 lv => simp [flattenMany, countMany, preorderMany, depthsMany]
  | case2 l h subs rest lv ihsubs ihrest =>
    obtain ⟨ih1, ih2, ih3⟩ := ihrest
    obtain ⟨jh1, jh2, jh3⟩ := ihsubs
    by_cases hs : subs.isEmpty
    · have hnil : subs = [] := by simpa using hs
      subst hnil
      refine ⟨?_, ?_, ?_⟩
      · simp [flattenMany, countMany, ih1]; omega
      · simp [flattenMany, preorderMany, FlatEntry.toNode, ih2]
      · simp [flattenMany, depthsMany, ih3]
    · refine ⟨?_, ?_, ?_⟩
      · simp [flattenMany, hs, countMany, ih1, jh1]; omega
      · simp [flattenMany, hs, preorderMany, FlatEntry.toNode, ih2, jh2]
      · simp [flattenMany, hs, depthsMany, ih3, jh3]

/-! ## Claim C7 -/

/-- Following the claim's words (refinement comparison only): keep the
entries at level 2 together with the entries at level ≤ 1 that themselves
have no children. -/
def claimKeep (it : FlatEntry) : Bool :=
  it.level == 2 || (decide (it.level ≤ 1) && it.subitems.isEmpty)

/-- A childless top-level outline entry. -/
def nodeA : OutlineNode := .node "A" "a" []

/-- A top-level outline entry with one child. -/
def nodeB : OutlineNode := .node "B" "b" [.node "B1" "b1" []]

set_option maxRecDepth 4000 in
/-- C7 counterexample: on the outline `[A, B[B1]]` the flattened entries
include a level-1 entry, the claim's rule keeps the childless level-0
entry `A`, but the code's filter (`level === 2 || (level === 1 &&
!subitems?.length)`) drops it: only `B1` is kept. -/
theorem kept_entries_counterexample :
    (flattenMany [nodeA, nodeB] 0).map FlatEntry.level = [0, 0, 1] ∧
    claimKeep ⟨"A", "a", [], 0⟩ = true ∧
    (flattenMany [nodeA, nodeB] 0).filter claimKeep =
      [⟨"A", "a", [], 0⟩, ⟨"B1", "b1", [], 1⟩] ∧
    keptEntries [nodeA, nodeB] = [⟨"B1", "b1", [], 1⟩] := by
  refine ⟨rfl, rfl, rfl, rfl⟩

/-- C7 amended: `getIndexList` keeps exactly the flattened entries at
level 2, together with the entries at level exactly 1 that themselves have
no children; level-0 entries are never kept, childless or not. -/
theorem kept_entries_amended (toc : List OutlineNode) (e : FlatEntry) :
    e ∈ keptEntries toc ↔
      e ∈ flattenMany toc 0 ∧ (e.level = 2 ∨ (e.level = 1 ∧ e.subitems = [])) := by
  simp [keptEntries, List.mem_filter, indexFilter, List.isEmpty_iff]

/-! ## History (view module, src/pdf.js lines 473-520)

JS:
```
class History extends EventTarget {
    #arr = []
    #index = -1
    pushState(x) {
        const last = this.#arr[this.#index]
        if (last === x || last?.fraction && last.fraction === x.fraction) return
        this.#arr[++this.#index] = x
        this.#arr.length = this.#index + 1
        this.dispatchEvent(new Event('index-change'))
    }
    back() {
        const index = this.#index
        if (index <= 0) return
        const detail = { state: this.#arr[index - 1] }
        this.#index = index - 1
        this.dispatchEvent(new CustomEvent('popstate', { detail }))
        this.dispatchEvent(new Event('index-change'))
    }
    forward() { ... symmetric, guard index >= this.#arr.length - 1 ... }
}
```
History entries are JS values compared with `===`: numbers and strings by
value, objects by reference.  A live JS object is modelled as a value
carrying an object identity `oid`; two records built separately get
distinct `oid`s, and an object's payload is determined by its identity, so
`===` on objects is `oid` (and hence payload) equality.  A fractional
record `{fraction}` carries its `fraction` payload (a JS number, modelled
as `ℚ`); `last?.fraction && ...` makes a `fraction` of `0` falsy. -/

inductive JSVal : Type where
  | num (n : Int)
  | str (s : String)
  | frac (oid : Nat) (fraction : ℚ)
  | obj (oid : Nat)
  deriving DecidableEq

/-- JS strict equality `===` on history entries: value equality on
primitives, reference equality on objects. -/
def strictEq : JSVal → JSVal → Bool
  | .num a, .num b => a == b
  | .str a, .str b => a == b
  | .frac o1 f1, .frac o2 f2 => o1 == o2 && f1 == f2
  | .obj o1, .obj o2 => o1 == o2
  | _, _ => false

/-- `v.fraction`: the `fraction` property, `undefined` (`none`) unless the
value is a fractional record. -/
def fracVal : JSVal → Option ℚ
  | .frac _ f => some f
  | _ => none

/-- Events dispatched by the history stack. -/
inductive HEvent : Type where
  | popstate (state : Option JSVal)
  | indexChange
  deriving DecidableEq

/-- The history stack: a growable array and a current position, `-1` when
empty. -/
structure History : Type where
  arr : List JSVal
  index : Int
  deriving DecidableEq

/-- JS array indexing `arr[i]`: `undefined` for negative or out-of-range
indices. -/
def lookupArr (l : List JSVal) (i : Int) : Option JSVal :=
  if i < 0 then none else l[i.toNat]?

/-- The entry at the current position (`this.#arr[this.#index]`). -/
def currentEntry (h : History) : Option JSVal :=
  lookupArr h.arr h.index

/-- The dedup guard of `pushState`:
`last === x || last?.fraction && last.fraction === x.fraction`. -/
def pushGuard (h : History) (x : JSVal) : Bool :=
  match currentEntry h with
  | none => false
  | some last =>
    strictEq last x ||
      (match fracVal last with
       | some f =>
         !(f == 0) &&
           (match fracVal x with
            | some g => f == g
            | none => false)
       | none => false)

/-- `pushState(x)`: no-op under the dedup guard; otherwise write `x` at
position `index + 1`, truncate the array to `index + 2`, advance the
position and emit `index-change`. -/
def pushState (h : History) (x : JSVal) : History × List HEvent :=
  if pushGuard h x then (h, [])
  else (⟨h.arr.take (h.index + 1).toNat ++ [x], h.index + 1⟩, [.indexChange])

/-- `back()`: no-op if `index <= 0`; otherwise step the position back and
emit `popstate` (carrying the target entry) then `index-change`. -/
def back (h : History) : History × List HEvent :=
  if h.index ≤ 0 then (h, [])
  else (⟨h.arr, h.index - 1⟩, [.popstate (lookupArr h.arr (h.index - 1)), .indexChange])

/-- `forward()`: no-op if `index >= arr.length - 1`; otherwise step the
position forward and emit `popstate` then `index-change`. -/
def forward (h : History) : History × List HEvent :=
  if (h.arr.length : Int) - 1 ≤ h.index then (h, [])
  else (⟨h.arr, h.index + 1⟩, [.popstate (lookupArr h.arr (h.index + 1)), .indexChange])

/-! ## Claim C4 -/

/-- A `pushState` whose dedup guard fires is a no-op with no events. -/
lemma pushState_noop {h : History} {x : JSVal} (hg : pushGuard h x = true) :
    pushState h x = (h, []) := by
  simp [pushState, hg]

/-- After a push that actually appended (on an in-bounds stack), the new
current entry is the pushed value. -/
lemma currentEntry_after_push (h : History) (x : JSVal)
    (hlb : -1 ≤ h.index) (hub : h.index < (h.arr.length : Int))
    (hg : pushGuard h x = false) :
    currentEntry (pushState h x).1 = some x := by
  simp only [pushState, hg, Bool.false_eq_true, if_false]
  simp only [currentEntry, lookupArr]
  rw [if_neg (by omega)]
  have hlen : (h.arr.take (h.index + 1).toNat).length = (h.index + 1).toNat := by
    rw [List.length_take]
    omega
  rw [List.getElem?_append_right (by omega)]
  simp [hlen]

/-- Pushing a fractional record whose nonzero fraction equals the top's
fraction trips the dedup guard, whatever the record's identity. -/
lemma guard_of_frac_top (h : History) (o o2 : Nat) (f : ℚ)
    (hf : f ≠ 0) (htop : currentEntry h = some (.frac o f)) :
    pushGuard h (.frac o2 f) = true := by
  simp [pushGuard, htop, fracVal, hf]

/-- Two distinct fractional records, both with fraction `0`. -/
def fracZeroA : JSVal := .frac 0 0

/-- See `fracZeroA`. -/
def fracZeroB : JSVal := .frac 1 0

/-- A stack whose top is a fraction-0 record. -/
def histFracZero : History := ⟨[fracZeroA], 0⟩

/-- The empty history (`#arr = []`, `#index = -1`). -/
def histEmpty : History := ⟨[], -1⟩

/-- C4 counterexample: the top of the stack and the pushed value are both
fractional records with equal fraction value `0` (hence deep-equal), yet
`pushState` appends and emits `index-change` — `last?.fraction` is falsy
for a fraction of `0` and `last === x` fails for distinct records — so the
stack ends with two consecutive deep-equal entries and its length grows. -/
theorem push_state_dedup_counterexample :
    fracVal fracZeroA = some 0 ∧
    fracVal fracZeroB = some 0 ∧
    currentEntry histFracZero = some fracZeroA ∧
    (pushState histFracZero fracZeroB).1.arr = [fracZeroA, fracZeroB] ∧
    (pushState histFracZero fracZeroB).2 = [HEvent.indexChange] :=
  ⟨rfl, rfl, rfl, rfl, rfl⟩

/-- C4 (amended): on an in-bounds stack, `pushState x` is a no-op (stack
and events unchanged, nothing emitted) when `x` is strictly equal (`===`)
to the current top, or when the top and `x` are fractional records with
equal *nonzero* fraction; pushing the same nonzero fraction twice in a row
leaves the stack unchanged even for records with different identities; and
an actual push never places an entry strictly equal to its predecessor, so
consecutive duplicates can arise only through the fraction-0 (or
deep-equal-object) gap of the counterexample. -/
theorem push_state_dedup_amended (h : History) (x : JSVal)
    (hlb : -1 ≤ h.index) (hub : h.index < (h.arr.length : Int)) :
    (∀ last, currentEntry h = some last → strictEq last x = true →
      pushState h x = (h, [])) ∧
    (∀ last f g, currentEntry h = some last → fracVal last = some f → f ≠ 0 →
      fracVal x = some g → f = g → pushState h x = (h, [])) ∧
    (∀ o1 o2 f, f ≠ 0 →
      pushState (pushState h (.frac o1 f)).1 (.frac o2 f) =
        ((pushState h (.frac o1 f)).1, [])) ∧
    (pushGuard h x = false → ∀ prev,
      lookupArr (pushState h x).1.arr ((pushState h x).1.index - 1) = some prev →
      strictEq prev x = false) := by
  refine ⟨?_, ?_, ?_, ?_⟩
  · intro last hlast hse
    exact pushState_noop (by simp [pushGuard, hlast, hse])
  · intro last f g hlast hfl hf hfx hfg
    subst hfg
    exact pushState_noop (by simp [pushGuard, hlast, hfl, hfx, hf])
  · intro o1 o2 f hf
    by_cases hg : pushGuard h (.frac o1 f)
    · -- first push is a no-op; the guard says the top already carries fraction f
      rw [pushState_noop hg]
      rcases htop : currentEntry h with _ | last
      · rw [pushGuard, htop] at hg; simp at hg
      · rw [pushGuard, htop] at hg
        simp only [Bool.or_eq_true] at hg
        cases last with
        | frac o' f' =>
          have hff : f' = f := by
            rcases hg with hse | hfr
            · simp only [strictEq, Bool.and_eq_true, beq_iff_eq] at hse
              exact hse.2
            · simp only [fracVal, Bool.and_eq_true, bne_iff_ne, beq_iff_eq] at hfr
              exact hfr.2
          subst hff
          exact pushState_noop (guard_of_frac_top h o' o2 f' hf htop)
        | num n =>
          rcases hg with hse | hfr
          · simp [strictEq] at hse
          · simp [fracVal] at hfr
        | str s =>
          rcases hg with hse | hfr
          · simp [strictEq] at hse
          · simp [fracVal] at hfr
        | obj o' =>
          rcases hg with hse | hfr
          · simp [strictEq] at hse
          · simp [fracVal] at hfr
    · have hg' : pushGuard h (.frac o1 f) = false := by simpa using hg
      have htop := currentEntry_after_push h (.frac o1 f) hlb hub hg'
      exact pushState_noop (guard_of_frac_top _ o1 o2 f hf htop)
  · intro hg prev hprev
    simp only [pushState, hg, Bool.false_eq_true, if_false] at hprev
    simp only [lookupArr] at hprev
    by_cases hneg : h.index < 0
    · rw [if_pos (by omega)] at hprev
      exact absurd hprev (by simp)
    · rw [if_neg (by omega)] at hprev
      have harr : (h.index + 1 - 1).toNat = h.index.toNat := by omega
      have hlt : h.index.toNat < (h.index + 1).toNat := by omega
      have hlen : (h.arr.take (h.index + 1).toNat).length = (h.index + 1).toNat := by
        rw [List.length_take]; omega
      rw [harr, List.getElem?_append, hlen, if_pos hlt, List.getElem?_take,
        if_pos hlt] at hprev
      rw [pushGuard, currentEntry, lookupArr, if_neg (by omega), hprev] at hg
      simp only [Bool.or_eq_true] at hg
      cases hse : strictEq prev x
      · rfl
      · rw [hse] at hg
        simp at hg

/-- Witness for C4: pushing `{fraction: 1/2}` twice in a row — as two
records with different identities — leaves the stack unchanged the second
time. -/
theorem push_state_dedup_witness :
    pushState (pushState histEmpty (.frac 0 (1/2))).1 (.frac 1 (1/2)) =
      ((pushState histEmpty (.frac 0 (1/2))).1, []) :=
  (push_state_dedup_amended histEmpty (.num 0) (by decide) (by decide)).2.2.1 0 1 (1/2)
    (by norm_num)

/-! ## Claim C5 -/

/-- The reachable state `push "a"; push "b"; back()`: position 0 with a
forward entry. -/
def histAB : History := ⟨[.str "a", .str "b"], 0⟩

/-- A two-entry stack positioned at its top. -/
def histNums : History := ⟨[.num 1, .num 2], 1⟩

/-- C5 counterexample: from the reachable state `push "a"; push "b";
back()` (current entry `"a"`, position 0), `back()` is a no-op at the
boundary but `forward()` still moves, so `back()` followed by `forward()`
ends at `"b"`, not at the entry `"a"` that was current before. -/
theorem history_back_forward_counterexample :
    (back (pushState (pushState histEmpty (.str "a")).1 (.str "b")).1).1 = histAB ∧
    currentEntry histAB = some (.str "a") ∧
    back histAB = (histAB, []) ∧
    (forward (back histAB).1).1.index = 1 ∧
    currentEntry ((forward (back histAB).1).1) = some (.str "b") :=
  ⟨rfl, rfl, rfl, rfl, rfl⟩

/-- C5 (amended): whenever `back()` actually moves (position strictly
positive, in bounds), `back()` followed by `forward()` restores the exact
prior state and current entry; `back()` is a silent no-op at position ≤ 0
and `forward()` at the last position (no events emitted); and a `pushState`
that appends truncates every entry after the new position, discarding the
abandoned forward branch. -/
theorem history_back_forward_amended (h : History) :
    (0 < h.index → h.index < (h.arr.length : Int) →
      (forward (back h).1).1 = h ∧
      currentEntry ((forward (back h).1).1) = currentEntry h) ∧
    (h.index ≤ 0 → back h = (h, [])) ∧
    ((h.arr.length : Int) - 1 ≤ h.index → forward h = (h, [])) ∧
    (∀ x, pushGuard h x = false →
      (pushState h x).1.arr = h.arr.take (h.index + 1).toNat ++ [x] ∧
      (pushState h x).1.index = h.index + 1) := by
  refine ⟨?_, ?_, ?_, ?_⟩
  · intro hpos hlt
    have hb : (back h).1 = ⟨h.arr, h.index - 1⟩ := by
      rw [back, if_neg (by omega)]
    have hf : (forward ⟨h.arr, h.index - 1⟩).1 = ⟨h.arr, h.index - 1 + 1⟩ := by
      rw [forward, if_neg (by simp; omega)]
    have hfix : h.index - 1 + 1 = h.index := by omega
    have hrt : (forward (back h).1).1 = h := by
      rw [hb, hf, hfix]
    exact ⟨hrt, by rw [hrt]⟩
  · intro hle
    rw [back, if_pos hle]
  · intro hge
    rw [forward, if_pos hge]
  · intro x hg
    rw [pushState, if_neg (by simp [hg])]
    exact ⟨rfl, rfl⟩

/-- Witness for C5: on a two-entry stack positioned at its top, `back()`
then `forward()` restores the state exactly. -/
theorem history_back_forward_witness :
    (forward (back histNums).1).1 = histNums :=
  ((history_back_forward_amended histNums).1 (by decide) (by decide)).1

/-! ## Navigation resolution (view module, src/pdf.js lines 826-852)

JS:
```
resolveNavigation(target) {
    try {
        if (typeof target === 'number') return { index: target }
        if (typeof target.fraction === 'number') {
            const [index, anchor] = this.#sectionProgress.getSection(target.fraction)
            return { index, anchor }
        }
        if (CFI.isCFI.test(target)) return this.resolveCFI(target)
        return this.book.resolveHref(target)
    } catch (e) {
        console.error(e)
        console.error(`无法解析目标 ${target}`)
    }
}
async goTo(target) {
    const resolved = this.resolveNavigation(target)
    try {
        await this.renderer.goTo(resolved)
        this.history.pushState(target)
        return resolved
    } catch (e) { ... }
}
```
The external collaborators — the fractional-position index
(`#sectionProgress.getSection`), the CFI recognizer/parser and the book's
destination service (`book.resolveHref`) — are parameters; any exception
they throw is the `Option.none` of the corresponding parameter, turned
into `undefined` (`none`) by the `try/catch`.  The renderer
(`renderer.goTo`, repository code outside `src/`) is modelled from the
spec as a boolean render step on the resolved location: `false` means the
awaited `renderer.goTo` rejected, which the `try` turns into a caught
error, skipping the history push. -/

/-- A resolved location: `{index, anchor?}` with the anchor opaque. -/
structure NavLocation : Type where
  index : Int
  anchor : Option Nat
  deriving DecidableEq

/-- The external services `resolveNavigation` consults. -/
structure ResolveEnv : Type where
  isCFI : String → Bool
  resolveCFI : String → Option NavLocation
  getSection : ℚ → Option (Int × Option Nat)
  resolveHref : String → Option NavLocation

/-- A navigation target, by the runtime shape `resolveNavigation`
dispatches on: a number, a `{fraction}` record (with its identity), or a
string. -/
inductive NavTarget : Type where
  | num (n : Int)
  | fracRec (oid : Nat) (fraction : ℚ)
  | str (s : String)

/-- `resolveNavigation(target)`: a bare number maps to `{index: target}`
with no anchor and no bounds check; a fractional record consults the
fractional-position index; a CFI-shaped string is parsed as a CFI; any
other string goes to the book's destination service.  `none` is the
caught-exception `undefined` result. -/
def resolveNavigation (env : ResolveEnv) : NavTarget → Option NavLocation
  | .num n => some ⟨n, none⟩
  | .fracRec _ f =>
    match env.getSection f with
    | some (i, a) => some ⟨i, a⟩
    | none => none
  | .str s => if env.isCFI s then env.resolveCFI s else env.resolveHref s

/-- The history entry `goTo` pushes: the raw target value. -/
def targetToVal : NavTarget → JSVal
  | .num n => .num n
  | .fracRec o f => .frac o f
  | .str s => .str s

/-- `goTo(target)`: resolve, render, and only after a successful render
push the raw target onto the history and return the resolved location; a
render failure is caught, leaving the history untouched and returning
`undefined`. -/
def goTo (env : ResolveEnv) (render : Option NavLocation → Bool)
    (h : History) (t : NavTarget) : History × List HEvent × Option NavLocation :=
  let resolved := resolveNavigation env t
  if render resolved then
    let p := pushState h (targetToVal t)
    (p.1, p.2, resolved)
  else (h, [], none)

/-! ## Claim C8 -/

/-- C8: when the render step fails — in particular when resolution failed
and the renderer rejects the unresolved (`undefined`) location — `goTo`
does not crash (it is a total function returning `undefined`), the history
stack receives no new entry, and no notification is emitted: the reader's
state is unchanged by the failed attempt. -/
theorem goto_failure_no_push (env : ResolveEnv) (render : Option NavLocation → Bool)
    (h : History) (t : NavTarget) :
    (render (resolveNavigation env t) = false →
      goTo env render h t = (h, [], none)) ∧
    (resolveNavigation env t = none → render none = false →
      goTo env render h t = (h, [], none)) := by
  constructor
  · intro hr
    simp [goTo, hr]
  · intro hres hr
    simp [goTo, hres, hr]

/-- An environment in which every external resolution fails. -/
def failEnv : ResolveEnv :=
  ⟨fun _ => false, fun _ => none, fun _ => none, fun _ => none⟩

/-- A renderer that renders exactly the successfully resolved locations. -/
def strictRender : Option NavLocation → Bool :=
  Option.isSome

/-- Witness for C8: a malformed string target under a renderer that
rejects unresolved locations leaves the empty history unchanged and
returns `undefined`. -/
theorem goto_failure_no_push_witness :
    goTo failEnv strictRender histEmpty (.str "bogus") = (histEmpty, [], none) :=
  (goto_failure_no_push failEnv strictRender histEmpty (.str "bogus")).2 rfl rfl

/-! ## Claim C10 -/

/-- C10: for every numeric target `n` — the quantification over all of `ℤ`
includes negatives and values at or beyond any section count —
`resolveNavigation` returns `{index: n}` with no anchor, consulting none
of the external services: out-of-range section ordinals are not rejected
at resolution time. -/
theorem resolve_numeric_unchecked (env : ResolveEnv) (n : Int) :
    resolveNavigation env (.num n) = some ⟨n, none⟩ := rfl

/-! ## Whole-book search (view module, src/pdf.js lines 946-994)

JS:
```
async * #searchBook(matcher, query) {
    const { sections } = this.book
    for (const [index, { createDocument }] of sections.entries()) {
        if (!createDocument) continue
        const doc = await createDocument()
        const subitems = Array.from(matcher(doc, query), ({ range, excerpt }) =>
            ({ cfi: this.getCFI(index, range), excerpt }))
        const progress = (index + 1) / sections.length
        yield { progress }
        if (subitems.length) yield { index, subitems }
    }
}
async * search(opts) { ... for await (const result of iter) { ... } yield 'done' }
```
The suspendable generator is modelled as the list of values it yields.
A materialized document is an opaque token; the matcher and `getCFI` are
the external parameters the generator closes over.  In the outer `search`
wrapper (whole-book branch) a `{index, subitems}` result is re-yielded as
`{label, subitems}` and every other result is yielded unchanged, with the
terminal `'done'` sentinel appended. -/

/-- An opaque materialized document token. -/
abbrev Doc := Nat

/-- One matcher hit: an in-document range token and an excerpt. -/
structure MatchResult : Type where
  range : Nat
  excerpt : String

/-- One search subitem: `{cfi, excerpt}`. -/
structure SearchHit : Type where
  cfi : String
  excerpt : String
  deriving DecidableEq

/-- A section as the search loop sees it: the destructured
`createDocument` accessor, absent (`none`) when the section exposes no
materializable document. -/
structure SearchSection : Type where
  createDocument : Option Doc

/-- A value yielded by the inner `#searchBook` generator. -/
inductive BookEvent : Type where
  | progress (p : ℚ)
  | hits (index : Nat) (subitems : List SearchHit)
  deriving DecidableEq

/-- The `subitems` computed for one scanned section:
`Array.from(matcher(doc, query), ({range, excerpt}) => ({cfi: getCFI(index, range), excerpt}))`. -/
def sectionHits (matcher : Doc → List MatchResult) (getCFI : Nat → Nat → String)
    (i : Nat) (doc : Doc) : List SearchHit :=
  (matcher doc).map fun m => SearchHit.mk (getCFI i m.range) m.excerpt

/-- The `#searchBook` loop from section ordinal `i` on: a falsy
`createDocument` is skipped (`continue`); otherwise the section yields its
`{progress: (index+1)/sections.length}` heartbeat followed by an
`{index, subitems}` result exactly when `subitems.length` is truthy. -/
def searchBookAux (matcher : Doc → List MatchResult) (getCFI : Nat → Nat → String)
    (total : Nat) : Nat → List SearchSection → List BookEvent
  | _, [] => []
  | i, ⟨none⟩ :: rest => searchBookAux matcher getCFI total (i + 1) rest
  | i, ⟨some doc⟩ :: rest =>
    BookEvent.progress (((i : ℚ) + 1) / (total : ℚ)) ::
      ((if (sectionHits matcher getCFI i doc).length ≠ 0
        then [BookEvent.hits i (sectionHits matcher getCFI i doc)] else []) ++
        searchBookAux matcher getCFI total (i + 1) rest)

/-- The full `#searchBook` generator over the book's section sequence. -/
def searchBook (m : Doc → List MatchResult) (g : Nat → Nat → String)
    (sections : List SearchSection) : List BookEvent :=
  searchBookAux m g sections.length 0 sections

/-- A value yielded by the public `search` generator (whole-book branch). -/
inductive OutEvent : Type where
  | progress (p : ℚ)
  | labeledHits (label : String) (subitems : List SearchHit)
  | done
  deriving DecidableEq

/-- How `search` re-yields an inner result: a subitems result is labeled
via `tocProgress.getProgress(result.index)?.label ?? ''`, anything else is
yielded unchanged. -/
def toOutEvent (getLabel : Nat → String) : BookEvent → OutEvent
  | .progress p => .progress p
  | .hits i subs => .labeledHits (getLabel i) subs

/-- The public whole-book `search` sequence: the re-yielded inner results
followed by the terminal `'done'` sentinel. -/
def searchWholeBook (m : Doc → List MatchResult) (g : Nat → Nat → String)
    (getLabel : Nat → String) (sections : List SearchSection) : List OutEvent :=
  (searchBook m g sections).map (toOutEvent getLabel) ++ [OutEvent.done]

/-- Recognizes a `{progress}` heartbeat. -/
def isProgress : BookEvent → Bool
  | .progress _ => true
  | _ => false

/-- The section ordinals of the `{index, subitems}` results, in yield
order. -/
def hitIndices (evs : List BookEvent) : List Nat :=
  evs.filterMap fun e => match e with | .hits i _ => some i | _ => none

/-- The block of values one loop iteration yields for section `i`:
nothing for a skipped section, otherwise the heartbeat followed by the
hits result when the section has hits. -/
def sectionEvents (m : Doc → List MatchResult) (g : Nat → Nat → String)
    (total : Nat) (i : Nat) : SearchSection → List BookEvent
  | ⟨none⟩ => []
  | ⟨some doc⟩ =>
    BookEvent.progress (((i : ℚ) + 1) / (total : ℚ)) ::
      (if (sectionHits m g i doc).length ≠ 0
       then [BookEvent.hits i (sectionHits m g i doc)] else [])

/-- The `{progress}` heartbeat values, in yield order. -/
def progressValues (evs : List BookEvent) : List ℚ :=
  evs.filterMap fun e => match e with | .progress p => some p | _ => none

/-! ## Claim C3 -/

/-- Each scanned (materializable) section contributes exactly one
`{progress}` heartbeat, skipped sections none. -/
lemma searchBookAux_countP (m : Doc → List MatchResult) (g : Nat → Nat → String)
    (total : Nat) :
    ∀ (l : List SearchSection) (i0 : Nat),
      (searchBookAux m g total i0 l).countP isProgress =
        l.countP fun s => s.createDocument.isSome := by
  intro l
  induction l with
  | nil => intro i0; rfl
  | cons s rest ih =>
    intro i0
    obtain ⟨cd⟩ := s
    rcases cd with _ | doc
    · simp only [searchBookAux, List.countP_cons]
      simp [ih (i0 + 1)]
    · simp only [searchBookAux, List.countP_cons, List.countP_append]
      by_cases hs : (sectionHits m g i0 doc).length ≠ 0
      · rw [if_pos hs]
        simp [List.countP_cons, isProgress, ih (i0 + 1)]
      · rw [if_neg hs]
        simp [isProgress, ih (i0 + 1)]

/-- Every `{index, subitems}` event has nonempty subitems — that section's
own computed hits — and sits immediately after that same section's
heartbeat. -/
lemma searchBookAux_hits_spec (m : Doc → List MatchResult) (g : Nat → Nat → String)
    (total : Nat) :
    ∀ (l : List SearchSection) (i0 k i : Nat) (subs : List SearchHit),
      (searchBookAux m g total i0 l)[k]? = some (.hits i subs) →
      subs ≠ [] ∧ 0 < k ∧
      (searchBookAux m g total i0 l)[k - 1]? =
        some (.progress (((i : ℚ) + 1) / (total : ℚ))) ∧
      i0 ≤ i ∧ ∃ s doc, l[i - i0]? = some s ∧ s.createDocument = some doc ∧
        subs = sectionHits m g i doc := by
  intro l
  induction l with
  | nil => intro i0 k i subs hk; simp [searchBookAux] at hk
  | cons s rest ih =>
    intro i0 k i subs hk
    obtain ⟨cd⟩ := s
    rcases cd with _ | doc
    · rw [searchBookAux] at hk
      obtain ⟨h1, h2, h3, h4, s', doc', h5, h6, h7⟩ := ih (i0 + 1) k i subs hk
      refine ⟨h1, h2, ?_, by omega, s', doc', ?_, h6, h7⟩
      · rw [searchBookAux]
        exact h3
      · have : i - i0 = (i - (i0 + 1)) + 1 := by omega
        rw [this, List.getElem?_cons_succ]
        exact h5
    · rw [searchBookAux] at hk
      by_cases hs : (sectionHits m g i0 doc).length ≠ 0
      · rw [if_pos hs, List.singleton_append] at hk
        match k with
        | 0 =>
          rw [List.getElem?_cons_zero] at hk
          exact absurd hk (by simp)
        | 1 =>
          rw [List.getElem?_cons_succ, List.getElem?_cons_zero] at hk
          obtain ⟨rfl, rfl⟩ : i0 = i ∧ sectionHits m g i0 doc = subs := by
            have := Option.some.inj hk
            exact ⟨(BookEvent.hits.inj this).1, (BookEvent.hits.inj this).2⟩
          refine ⟨?_, by omega, ?_, le_refl _, ⟨some doc⟩, doc, ?_, rfl, rfl⟩
          · intro hnil
            rw [hnil] at hs
            simp at hs
          · rw [searchBookAux, if_pos hs, List.singleton_append]
            rfl
          · simp
        | (kk + 2) =>
          rw [List.getElem?_cons_succ, List.getElem?_cons_succ] at hk
          obtain ⟨h1, h2, h3, h4, s', doc', h5, h6, h7⟩ := ih (i0 + 1) kk i subs hk
          refine ⟨h1, by omega, ?_, by omega, s', doc', ?_, h6, h7⟩
          · rw [searchBookAux, if_pos hs, List.singleton_append]
            have hkk : kk + 2 - 1 = (kk - 1) + 1 + 1 := by omega
            rw [hkk, List.getElem?_cons_succ, List.getElem?_cons_succ]
            exact h3
          · have : i - i0 = (i - (i0 + 1)) + 1 := by omega
            rw [this, List.getElem?_cons_succ]
            exact h5
      · rw [if_neg hs, List.nil_append] at hk
        match k with
        | 0 =>
          rw [List.getElem?_cons_zero] at hk
          exact absurd hk (by simp)
        | (kk + 1) =>
          rw [List.getElem?_cons_succ] at hk
          obtain ⟨h1, h2, h3, h4, s', doc', h5, h6, h7⟩ := ih (i0 + 1) kk i subs hk
          refine ⟨h1, by omega, ?_, by omega, s', doc', ?_, h6, h7⟩
          · rw [searchBookAux, if_neg hs, List.nil_append]
            have hkk : kk + 1 - 1 = (kk - 1) + 1 := by omega
            rw [hkk, List.getElem?_cons_succ]
            exact h3
          · have : i - i0 = (i - (i0 + 1)) + 1 := by omega
            rw [this, List.getElem?_cons_succ]
            exact h5

/-- Hit results are yielded in strictly increasing section order, all at
or beyond the scan's starting ordinal. -/
lemma searchBookAux_hitIndices (m : Doc → List MatchResult) (g : Nat → Nat → String)
    (total : Nat) :
    ∀ (l : List SearchSection) (i0 : Nat),
      List.Chain' (· < ·) (hitIndices (searchBookAux m g total i0 l)) ∧
      ∀ j ∈ hitIndices (searchBookAux m g total i0 l), i0 ≤ j := by
  intro l
  induction l with
  | nil => intro i0; simp [searchBookAux, hitIndices]
  | cons s rest ih =>
    intro i0
    obtain ⟨cd⟩ := s
    rcases cd with _ | doc
    · rw [searchBookAux]
      exact ⟨(ih (i0 + 1)).1, fun j hj => le_trans (by omega) ((ih (i0 + 1)).2 j hj)⟩
    · rw [searchBookAux]
      by_cases hs : (sectionHits m g i0 doc).length ≠ 0
      · rw [if_pos hs]
        rw [hitIndices, List.filterMap_cons, List.singleton_append,
          List.filterMap_cons]
        simp only
        constructor
        · rw [List.chain'_cons']
          refine ⟨?_, (ih (i0 + 1)).1⟩
          intro y hy
          have hmem : y ∈ hitIndices (searchBookAux m g total (i0 + 1) rest) :=
            List.mem_of_mem_head? hy
          have := (ih (i0 + 1)).2 y hmem
          omega
        · intro j hj
          rcases List.mem_cons.mp hj with rfl | hj'
          · exact le_refl _
          · exact le_trans (by omega) ((ih (i0 + 1)).2 j hj')
      · rw [if_neg hs, List.nil_append]
        rw [hitIndices, List.filterMap_cons]
        simp only
        exact ⟨(ih (i0 + 1)).1, fun j hj => le_trans (by omega) ((ih (i0 + 1)).2 j hj)⟩

/-- The yielded sequence is exactly the concatenation, in section-ordinal
order starting at the scan's first ordinal, of each section's block. -/
lemma searchBookAux_eq_flatMap (m : Doc → List MatchResult) (g : Nat → Nat → String)
    (total : Nat) :
    ∀ (l : List SearchSection) (i0 : Nat),
      searchBookAux m g total i0 l =
        (List.enumFrom i0 l).flatMap fun q => sectionEvents m g total q.1 q.2 := by
  intro l
  induction l with
  | nil => intro i0; rfl
  | cons s rest ih =>
    intro i0
    rw [List.enumFrom_cons, List.flatMap_cons]
    obtain ⟨cd⟩ := s
    rcases cd with _ | doc
    · rw [searchBookAux, sectionEvents, List.nil_append, ih (i0 + 1)]
    · rw [searchBookAux, sectionEvents, ih (i0 + 1), List.cons_append]

/-- Heartbeat values are yielded in strictly increasing order, each at
least the value belonging to the scan's first ordinal. -/
lemma searchBookAux_progressValues (m : Doc → List MatchResult) (g : Nat → Nat → String)
    (total : Nat) (htot : 0 < total) :
    ∀ (l : List SearchSection) (i0 : Nat),
      List.Chain' (· < ·) (progressValues (searchBookAux m g total i0 l)) ∧
      ∀ p ∈ progressValues (searchBookAux m g total i0 l),
        ((i0 : ℚ) + 1) / (total : ℚ) ≤ p := by
  have htotQ : (0 : ℚ) < (total : ℚ) := by exact_mod_cast htot
  have hstep : ∀ (j : Nat),
      ((j : ℚ) + 1) / (total : ℚ) < (((j + 1 : ℕ) : ℚ) + 1) / (total : ℚ) := by
    intro j
    gcongr
    · linarith
  intro l
  induction l with
  | nil => intro i0; simp [searchBookAux, progressValues]
  | cons s rest ih =>
    intro i0
    obtain ⟨cd⟩ := s
    rcases cd with _ | doc
    · rw [searchBookAux]
      refine ⟨(ih (i0 + 1)).1, ?_⟩
      intro p hp
      exact le_trans (le_of_lt (hstep i0)) ((ih (i0 + 1)).2 p hp)
    · rw [searchBookAux]
      have hpv : progressValues (BookEvent.progress (((i0 : ℚ) + 1) / (total : ℚ)) ::
          ((if (sectionHits m g i0 doc).length ≠ 0
            then [BookEvent.hits i0 (sectionHits m g i0 doc)] else []) ++
            searchBookAux m g total (i0 + 1) rest)) =
          (((i0 : ℚ) + 1) / (total : ℚ)) ::
            progressValues (searchBookAux m g total (i0 + 1) rest) := by
        by_cases hs : (sectionHits m g i0 doc).length ≠ 0
        · rw [if_pos hs, List.singleton_append]
          rw [progressValues, List.filterMap_cons, List.filterMap_cons]
          rfl
        · rw [if_neg hs, List.nil_append]
          rw [progressValues, List.filterMap_cons]
          rfl
      rw [hpv]
      constructor
      · rw [List.chain'_cons']
        refine ⟨?_, (ih (i0 + 1)).1⟩
        intro y hy
        have hmem : y ∈ progressValues (searchBookAux m g total (i0 + 1) rest) :=
          List.mem_of_mem_head? hy
        exact lt_of_lt_of_le (hstep i0) ((ih (i0 + 1)).2 y hmem)
      · intro p hp
        rcases List.mem_cons.mp hp with rfl | hp'
        · exact le_refl _
        · exact le_trans (le_of_lt (hstep i0)) ((ih (i0 + 1)).2 p hp')

/-- C3: for every whole-book search, every scanned section — exactly the
sections exposing a materializable document — contributes exactly one
`{progress}` heartbeat; an `{index, subitems}` result carries that
section's own nonempty hit list and appears immediately after that
section's heartbeat; hit results arrive in strictly increasing section
order; the whole yielded sequence is ordered by section ordinal — it
equals the concatenation, for the sections in order `0, 1, 2, …`, of each
section's heartbeat-then-hits block (empty for skipped sections), and the
heartbeat values themselves strictly increase, covering zero-hit sections
too; and the public sequence ends with the terminal `'done'` sentinel. -/
theorem search_book_events (m : Doc → List MatchResult) (g : Nat → Nat → String)
    (getLabel : Nat → String) (sections : List SearchSection) :
    ((searchBook m g sections).countP isProgress =
      sections.countP fun s => s.createDocument.isSome) ∧
    (∀ k i subs, (searchBook m g sections)[k]? = some (.hits i subs) →
      subs ≠ [] ∧ 0 < k ∧
      (searchBook m g sections)[k - 1]? =
        some (.progress (((i : ℚ) + 1) / (sections.length : ℚ))) ∧
      ∃ s doc, sections[i]? = some s ∧ s.createDocument = some doc ∧
        subs = sectionHits m g i doc) ∧
    List.Chain' (· < ·) (hitIndices (searchBook m g sections)) ∧
    (searchBook m g sections =
      (List.enumFrom 0 sections).flatMap fun q =>
        sectionEvents m g sections.length q.1 q.2) ∧
    List.Chain' (· < ·) (progressValues (searchBook m g sections)) ∧
    (searchWholeBook m g getLabel sections).getLast? = some OutEvent.done := by
  refine ⟨searchBookAux_countP m g _ sections 0, ?_,
    (searchBookAux_hitIndices m g _ sections 0).1,
    searchBookAux_eq_flatMap m g _ sections 0, ?_, ?_⟩
  · intro k i subs hk
    obtain ⟨h1, h2, h3, _, s, doc, h5, h6, h7⟩ :=
      searchBookAux_hits_spec m g sections.length sections 0 k i subs hk
    have hz : i - 0 = i := by omega
    rw [hz] at h5
    exact ⟨h1, h2, h3, s, doc, h5, h6, h7⟩
  · cases sections with
    | nil => simp [searchBook, searchBookAux, progressValues]
    | cons s rest =>
      exact (searchBookAux_progressValues m g (s :: rest).length (by simp)
        (s :: rest) 0).1
  · rw [searchWholeBook]
    exact List.getLast?_concat _

/-- A matcher with one hit per document. -/
def matcherW : Doc → List MatchResult := fun _ => [⟨0, "ex"⟩]

/-- A constant identifier computation. -/
def cfiW : Nat → Nat → String := fun _ _ => "cfi"

/-- One materializable section. -/
def sectionsW : List SearchSection := [⟨some 0⟩]

/-- Witness for C3: in a one-section book whose matcher hits, the hits
event at position 1 sits right after the section's heartbeat at position
0, with nonempty subitems. -/
theorem search_book_events_witness :
    ((searchBook matcherW cfiW sectionsW)[0]? =
      some (BookEvent.progress (((0 : ℚ) + 1) / (sectionsW.length : ℚ)))) ∧
    ((⟨"cfi", "ex"⟩ : SearchHit) :: []) ≠ [] :=
  let h := (search_book_events matcherW cfiW (fun _ => "") sectionsW).2.1 1 0
    [⟨"cfi", "ex"⟩] rfl
  ⟨h.2.2.1, h.1⟩

/-! ## Text reconstruction (`getIndexContent`, src/pdf.js lines 148-207)

JS:
```
const validItems = textContent.items.filter(item =>
    item.str && Array.isArray(item.transform) && item.transform.length >= 6)
if (validItems.length === 0) { return `...[No readable text content found on this page]...` }
const lines = []
let currentY
let currentLine = []
validItems.forEach(item => {
    const y = item.transform[5]
    if (currentY === undefined || Math.abs(currentY - y) > 5) {
        if (currentLine.length > 0) { lines.push(currentLine) }
        currentLine = [item]
        currentY = y
    } else { currentLine.push(item) }
})
if (currentLine.length > 0) { lines.push(currentLine) }
const pageText = lines
    .sort((a, b) => b[0].transform[5] - a[0].transform[5])
    .map(line => line
        .sort((a, b) => a.transform[4] - b.transform[4])
        .map(item => item.str)
        .join(' '))
    .join('\n')
return `\n----- page:${index} start -----\n${pageText}\n----- page:${index} end -----\n\n`
```
A text fragment carries a string value and, when well-formed, a transform
array whose entries 4 and 5 are the horizontal and vertical translation
(JS numbers, modelled as `ℚ`; a missing or short array is `none` /
filtered out).  `Array.prototype.sort` is a stable sort under a consistent
comparator, so a numeric comparator `b - a` (resp. `a - b`) is faithfully
modelled by a stable `mergeSort` on the corresponding `≤`. -/

/-- One positioned text fragment as delivered by `getTextContent`. -/
structure TextItem : Type where
  str : String
  transform : Option (List ℚ)

instance : Inhabited TextItem := ⟨⟨"", none⟩⟩

/-- The validity filter:
`item.str && Array.isArray(item.transform) && item.transform.length >= 6`. -/
def validItem (it : TextItem) : Bool :=
  (it.str != "") &&
    (match it.transform with
     | some l => decide (6 ≤ l.length)
     | none => false)

/-- The fragments that survive the validity filter. -/
def validItems (items : List TextItem) : List TextItem :=
  items.filter validItem

/-- `item.transform[5]`: the vertical coordinate. -/
def itemY (it : TextItem) : ℚ :=
  match it.transform with
  | some l => l.getD 5 0
  | none => 0

/-- `item.transform[4]`: the horizontal coordinate. -/
def itemX (it : TextItem) : ℚ :=
  match it.transform with
  | some l => l.getD 4 0
  | none => 0

/-- The grouping loop's mutable state: completed `lines`, the current
line's anchor `currentY` (`undefined` initially), and `currentLine`. -/
structure GroupSt : Type where
  lines : List (List TextItem)
  currentY : Option ℚ
  currentLine : List TextItem

/-- One iteration of the `forEach` grouping body: start a new line when
there is no anchor yet or the fragment's vertical coordinate is more than
5 units from the line's anchor (flushing a nonempty current line);
otherwise append to the current line without moving the anchor. -/
def groupStep (st : GroupSt) (item : TextItem) : GroupSt :=
  match st.currentY with
  | none =>
    ⟨if st.currentLine.isEmpty then st.lines else st.lines ++ [st.currentLine],
      some (itemY item), [item]⟩
  | some cy =>
    if 5 < |cy - itemY item| then
      ⟨if st.currentLine.isEmpty then st.lines else st.lines ++ [st.currentLine],
        some (itemY item), [item]⟩
    else
      ⟨st.lines, some cy, st.currentLine ++ [item]⟩

/-- The grouping pass: fold the loop body over the fragments and flush the
final nonempty current line. -/
def groupLines (items : List TextItem) : List (List TextItem) :=
  let st := items.foldl groupStep ⟨[], none, []⟩
  if st.currentLine.isEmpty then st.lines else st.lines ++ [st.currentLine]

/-- The line comparator `(a, b) => b[0].transform[5] - a[0].transform[5]`
(descending vertical coordinate of the line's first fragment). -/
def lineLe (a b : List TextItem) : Bool := decide (itemY b.headI ≤ itemY a.headI)

/-- The in-line comparator `(a, b) => a.transform[4] - b.transform[4]`
(ascending horizontal coordinate). -/
def fragLe (a b : TextItem) : Bool := decide (itemX a ≤ itemX b)

/-- The stable sort of the completed lines, top of page first. -/
def sortLines (ls : List (List TextItem)) : List (List TextItem) :=
  ls.mergeSort lineLe

/-- The stable sort of one line's fragments, left to right. -/
def lineSort (line : List TextItem) : List TextItem :=
  line.mergeSort fragLe

/-- The reconstructed page text: fragments of a line joined with a single
space, lines joined with a newline. -/
def pageText (items : List TextItem) : String :=
  String.intercalate "\n"
    ((sortLines (groupLines (validItems items))).map fun line =>
      String.intercalate " " ((lineSort line).map TextItem.str))

/-- `----- page:N start -----` delimiter (with surrounding newlines). -/
def pageHeader (idx : Nat) : String :=
  "\n----- page:" ++ toString idx ++ " start -----\n"

/-- `----- page:N end -----` delimiter (with surrounding newlines). -/
def pageFooter (idx : Nat) : String :=
  "\n----- page:" ++ toString idx ++ " end -----\n\n"

/-- `getIndexContent` for one page: the placeholder between the delimiters
when no valid fragments exist, the reconstructed text otherwise. -/
def getIndexContent (idx : Nat) (items : List TextItem) : String :=
  if (validItems items).isEmpty then
    pageHeader idx ++ "[No readable text content found on this page]" ++ pageFooter idx
  else
    pageHeader idx ++ pageText items ++ pageFooter idx

/-! ## Claim C9 -/

/-- What the grouping pass guarantees of every emitted line: nonempty, and
every fragment within 5 units of the line's anchor (its first fragment). -/
def lineOK (l : List TextItem) : Prop :=
  l ≠ [] ∧ ∀ it ∈ l, |itemY l.headI - itemY it| ≤ 5

/-- The grouping loop's invariant: completed lines are `lineOK`; the
anchor is `undefined` exactly while the current line is empty, and
otherwise equals the current line's first fragment's vertical coordinate,
the current line itself being `lineOK`. -/
def stOK (st : GroupSt) : Prop :=
  (∀ l ∈ st.lines, lineOK l) ∧
  (st.currentLine = [] → st.currentY = none) ∧
  (st.currentLine ≠ [] → st.currentY = some (itemY st.currentLine.headI) ∧
    lineOK st.currentLine)

/-- Appending to a nonempty line does not change its first fragment. -/
lemma headI_append_singleton {l : List TextItem} (h : l ≠ []) (x : TextItem) :
    (l ++ [x]).headI = l.headI := by
  cases l with
  | nil => exact absurd rfl h
  | cons a t => rfl

/-- Flushing the current line preserves `lineOK` of all emitted lines. -/
lemma stOK_flush {st : GroupSt} (h : stOK st) :
    ∀ l ∈ (if st.currentLine.isEmpty then st.lines else st.lines ++ [st.currentLine]),
      lineOK l := by
  by_cases hc : st.currentLine.isEmpty
  · rw [if_pos hc]
    exact h.1
  · rw [if_neg hc]
    intro l hl
    rcases List.mem_append.mp hl with hl' | hl'
    · exact h.1 l hl'
    · have : l = st.currentLine := by simpa using hl'
      subst this
      exact (h.2.2 (by simpa using hc)).2

/-- One grouping step preserves the invariant. -/
lemma groupStep_preserves {st : GroupSt} (it : TextItem) (h : stOK st) :
    stOK (groupStep st it) := by
  rcases hY : st.currentY with _ | cy
  · refine ⟨?_, ?_, ?_⟩
    · simp only [groupStep, hY]
      exact stOK_flush h
    · simp [groupStep, hY]
    · intro _
      simp only [groupStep, hY]
      refine ⟨rfl, ?_, ?_⟩
      · simp
      · intro x hx
        simp only [List.headI]
        have : x = it := by simpa using hx
        subst this
        simp
  · by_cases hfar : 5 < |cy - itemY it|
    · refine ⟨?_, ?_, ?_⟩
      · simp only [groupStep, hY, if_pos hfar]
        exact stOK_flush h
      · simp [groupStep, hY, if_pos hfar]
      · intro _
        simp only [groupStep, hY, if_pos hfar]
        refine ⟨rfl, ?_, ?_⟩
        · simp
        · intro x hx
          simp only [List.headI]
          have : x = it := by simpa using hx
          subst this
          simp
    · -- the fragment joins the current line, which must be nonempty
      have hne : st.currentLine ≠ [] := by
        intro hnil
        rw [h.2.1 hnil] at hY
        exact Option.noConfusion hY
      obtain ⟨hcy, hlok⟩ := h.2.2 hne
      have hcy' : cy = itemY st.currentLine.headI := by
        rw [hY] at hcy
        exact Option.some.inj hcy
      refine ⟨?_, ?_, ?_⟩
      · simp only [groupStep, hY, if_neg hfar]
        exact h.1
      · simp [groupStep, hY, if_neg hfar]
      · intro _
        simp only [groupStep, hY, if_neg hfar]
        constructor
        · rw [headI_append_singleton hne, hcy']
        · refine ⟨by simp, ?_⟩
          intro x hx
          rw [headI_append_singleton hne]
          rcases List.mem_append.mp hx with hx' | hx'
          · exact hlok.2 x hx'
          · have hxe : x = it := by simpa using hx'
            subst hxe
            rw [← hcy']
            push_neg at hfar
            exact hfar

/-- The invariant holds after folding the loop body over any fragments. -/
lemma foldl_groupStep_stOK (items : List TextItem) :
    ∀ (st : GroupSt), stOK st → stOK (items.foldl groupStep st) := by
  induction items with
  | nil => intro st h; exact h
  | cons it rest ih =>
    intro st h
    exact ih (groupStep st it) (groupStep_preserves it h)

/-- Every line the grouping pass emits is nonempty and within tolerance of
its anchor. -/
lemma groupLines_lineOK (items : List TextItem) :
    ∀ l ∈ groupLines items, lineOK l := by
  have hinit : stOK ⟨[], none, []⟩ := by
    refine ⟨by simp, fun _ => rfl, fun hne => absurd rfl hne⟩
  have h := foldl_groupStep_stOK items ⟨[], none, []⟩ hinit
  rw [groupLines]
  exact stOK_flush h

/-- Filtering the valid fragments is idempotent, so invalid fragments
cannot influence the output. -/
lemma validItems_idem (items : List TextItem) :
    validItems (validItems items) = validItems items := by
  simp [validItems, List.filter_filter]

/-- The sorted lines are pairwise in descending order of their anchors'
vertical coordinates. -/
lemma sortLines_sorted (ls : List (List TextItem)) :
    (sortLines ls).Pairwise (fun a b => itemY b.headI ≤ itemY a.headI) := by
  have htrans : ∀ (a b c : List TextItem),
      lineLe a b → lineLe b c → lineLe a c := by
    intro a b c hab hbc
    have h1 : itemY b.headI ≤ itemY a.headI := of_decide_eq_true hab
    have h2 : itemY c.headI ≤ itemY b.headI := of_decide_eq_true hbc
    exact decide_eq_true (le_trans h2 h1)
  have htotal : ∀ (a b : List TextItem), lineLe a b || lineLe b a := by
    intro a b
    rcases le_total (itemY b.headI) (itemY a.headI) with h | h
    · simp [lineLe, h]
    · simp [lineLe, h]
  have h := @List.sorted_mergeSort _ lineLe htrans htotal ls
  exact h.imp fun hab => of_decide_eq_true hab

/-- A sorted line's fragments are pairwise in ascending order of their
horizontal coordinates. -/
lemma lineSort_sorted (line : List TextItem) :
    (lineSort line).Pairwise (fun a b => itemX a ≤ itemX b) := by
  have htrans : ∀ (a b c : TextItem), fragLe a b → fragLe b c → fragLe a c := by
    intro a b c hab hbc
    exact decide_eq_true (le_trans (of_decide_eq_true hab) (of_decide_eq_true hbc))
  have htotal : ∀ (a b : TextItem), fragLe a b || fragLe b a := by
    intro a b
    rcases le_total (itemX a) (itemX b) with h | h
    · simp [fragLe, h]
    · simp [fragLe, h]
  have h := @List.sorted_mergeSort _ fragLe htrans htotal line
  exact h.imp fun hab => of_decide_eq_true hab

/-- C9: text reconstruction is a total function of the fragments.
Fragments without a string value or a well-formed placement are discarded
(the output depends only on the filtered fragments); with no valid
fragment the placeholder no-readable-text line is emitted between the page
delimiters; every emitted line is nonempty with all fragments within 5
units of the line's anchor coordinate; lines are ordered by descending
vertical coordinate; and within each line fragments are ordered by
ascending horizontal coordinate (joined with a single space within a line
and a newline between lines, per `pageText`). -/
theorem text_reconstruction_spec (idx : Nat) (items : List TextItem) :
    (getIndexContent idx items = getIndexContent idx (validItems items)) ∧
    (validItems items = [] →
      getIndexContent idx items =
        pageHeader idx ++ "[No readable text content found on this page]" ++
          pageFooter idx) ∧
    (∀ line ∈ sortLines (groupLines (validItems items)),
      line ≠ [] ∧ ∀ it ∈ line, |itemY line.headI - itemY it| ≤ 5) ∧
    ((sortLines (groupLines (validItems items))).Pairwise
      (fun a b => itemY b.headI ≤ itemY a.headI)) ∧
    (∀ line, (lineSort line).Pairwise (fun a b => itemX a ≤ itemX b)) := by
  refine ⟨?_, ?_, ?_, ?_, ?_⟩
  · rw [getIndexContent, getIndexContent, validItems_idem, pageText, pageText,
      validItems_idem]
  · intro hnil
    rw [getIndexContent, if_pos (by simp [hnil])]
  · intro line hl
    exact groupLines_lineOK _ line (List.mem_mergeSort.mp hl)
  · exact sortLines_sorted _
  · exact lineSort_sorted

/-- Witness for C9: a page whose only fragment has no placement produces
exactly the placeholder page. -/
theorem text_reconstruction_witness :
    getIndexContent 0 [⟨"", none⟩] =
      "\n----- page:0 start -----\n[No readable text content found on this page]\n----- page:0 end -----\n\n" := by
  have h := (text_reconstruction_spec 0 [⟨"", none⟩]).2.1 rfl
  exact h

end Foliate
